import Mathlib

/-!
Verification of the legalEase browser client (`main.js`).

Strings are modelled as `List Char`.  Each definition is a shallow embedding
of the corresponding function in `main.js`; the JavaScript line numbers are
given in the doc comments.
-/

namespace LegalEase

/-- The double-quote character `"`. -/
def quotChar : Char := Char.ofNat 34

/-- The single-quote character. -/
def aposChar : Char := Char.ofNat 39

def ampEnt : List Char := ['&', 'a', 'm', 'p', ';']
def ltEnt : List Char := ['&', 'l', 't', ';']
def gtEnt : List Char := ['&', 'g', 't', ';']
def quotEnt : List Char := ['&', 'q', 'u', 'o', 't', ';']
def aposEnt : List Char := ['&', '#', '0', '3', '9', ';']

/-- `str.replace(/c/g, r)` for a single-character pattern `c`:
every occurrence of `c` is replaced by `r`. -/
def replAll (c : Char) (r : List Char) (l : List Char) : List Char :=
  l.flatMap fun x => if x = c then r else [x]

/-- `escapeHTML` (main.js 217-222): five sequential global replaces,
`&` first, then `<`, `>`, `"`, `'`. -/
def escapeHTML (l : List Char) : List Char :=
  replAll aposChar aposEnt
    (replAll quotChar quotEnt
      (replAll '>' gtEnt
        (replAll '<' ltEnt
          (replAll '&' ampEnt l))))

/-- Per-character view of `escapeHTML`. -/
def escChar (c : Char) : List Char :=
  if c = '&' then ampEnt
  else if c = '<' then ltEnt
  else if c = '>' then gtEnt
  else if c = quotChar then quotEnt
  else if c = aposChar then aposEnt
  else [c]

theorem replAll_append (c : Char) (r : List Char) (l₁ l₂ : List Char) :
    replAll c r (l₁ ++ l₂) = replAll c r l₁ ++ replAll c r l₂ := by
  simp [replAll]

theorem replAll_cons (c : Char) (r : List Char) (x : Char) (l : List Char) :
    replAll c r (x :: l) = (if x = c then r else [x]) ++ replAll c r l := by
  simp [replAll]

theorem replAll_nil (c : Char) (r : List Char) : replAll c r [] = [] := by
  simp [replAll]

theorem escapeHTML_nil : escapeHTML [] = [] := by
  simp [escapeHTML, replAll]

theorem escapeHTML_append (l₁ l₂ : List Char) :
    escapeHTML (l₁ ++ l₂) = escapeHTML l₁ ++ escapeHTML l₂ := by
  simp [escapeHTML, replAll_append]

/-- The sequential replaces of `escapeHTML` act independently on each
character of the input, because no replacement string contains a character
that a later replace rewrites. -/
theorem escapeHTML_cons (c : Char) (l : List Char) :
    escapeHTML (c :: l) = escChar c ++ escapeHTML l := by
  have h : escapeHTML (c :: l) = escapeHTML [c] ++ escapeHTML l := by
    have : (c :: l) = [c] ++ l := rfl
    rw [this, escapeHTML_append]
  rw [h]
  congr 1
  by_cases h1 : c = '&'
  · subst h1; rfl
  · by_cases h2 : c = '<'
    · subst h2; rfl
    · by_cases h3 : c = '>'
      · subst h3; rfl
      · by_cases h4 : c = quotChar
        · subst h4; rfl
        · by_cases h5 : c = aposChar
          · subst h5; rfl
          · simp [escapeHTML, escChar, replAll, h1, h2, h3, h4, h5]

theorem escapeHTML_eq_flatMap (l : List Char) :
    escapeHTML l = l.flatMap escChar := by
  induction l with
  | nil => simp [escapeHTML_nil]
  | cons c t ih => rw [escapeHTML_cons, List.flatMap_cons, ih]

/-- One entity-decoding step of the spec-side unescape: if the input starts
with one of the five entities `escapeHTML` emits, return the decoded
character and the remaining input. -/
def entStep (l : List Char) : Option (Char × List Char) :=
  if ampEnt.isPrefixOf l then some ('&', l.drop ampEnt.length)
  else if ltEnt.isPrefixOf l then some ('<', l.drop ltEnt.length)
  else if gtEnt.isPrefixOf l then some ('>', l.drop gtEnt.length)
  else if quotEnt.isPrefixOf l then some (quotChar, l.drop quotEnt.length)
  else if aposEnt.isPrefixOf l then some (aposChar, l.drop aposEnt.length)
  else none

theorem entStep_length {l : List Char} {c : Char} {r : List Char}
    (h : entStep l = some (c, r)) : r.length < l.length := by
  have key : ∀ p : List Char, p ≠ [] → p.isPrefixOf l →
      (l.drop p.length).length < l.length := by
    intro p hp hpre
    have hpre2 : p <+: l := List.isPrefixOf_iff_prefix.mp hpre
    have hlen : p.length ≤ l.length := hpre2.length_le
    have hpos : 0 < p.length := List.length_pos.mpr hp
    simp only [List.length_drop]
    omega
  unfold entStep at h
  split_ifs at h with h1 h2 h3 h4 h5 <;>
    first
      | (cases h; exact key _ (by simp [ampEnt]) h1)
      | (cases h; exact key _ (by simp [ltEnt]) h2)
      | (cases h; exact key _ (by simp [gtEnt]) h3)
      | (cases h; exact key _ (by simp [quotEnt]) h4)
      | (cases h; exact key _ (by simp [aposEnt]) h5)

/-- Modelled from the spec: the spec's "round-trip through escape/unescape
preserves original characters" refers to an HTML-entity decoder, which has no
counterpart in `main.js` (the browser performs it); this definition follows
the spec's words, decoding exactly the five entities `escapeHTML` emits. -/
def unescapeHTMLspec (l : List Char) : List Char :=
  match h : entStep l with
  | some (c, rest) => c :: unescapeHTMLspec rest
  | none =>
    match l with
    | c :: rest => c :: unescapeHTMLspec rest
    | [] => []
termination_by l.length
decreasing_by
  · exact entStep_length h
  · simp

theorem unescape_nil : unescapeHTMLspec [] = [] := by
  rw [unescapeHTMLspec]
  split
  · next c r heq => simp [entStep, ampEnt, ltEnt, gtEnt, quotEnt, aposEnt] at heq
  · rfl

theorem unescape_of_entStep_some {l : List Char} {c : Char} {r : List Char}
    (h : entStep l = some (c, r)) :
    unescapeHTMLspec l = c :: unescapeHTMLspec r := by
  rw [unescapeHTMLspec]
  split
  · next c2 r2 heq => rw [h] at heq; cases heq; rfl
  · next heq => rw [h] at heq; cases heq

theorem unescape_cons_of_ne (c : Char) (t : List Char) (h : c ≠ '&') :
    unescapeHTMLspec (c :: t) = c :: unescapeHTMLspec t := by
  have hs : entStep (c :: t) = none := by
    unfold entStep
    simp [ampEnt, ltEnt, gtEnt, quotEnt, aposEnt, List.isPrefixOf_cons₂, Ne.symm h]
  rw [unescapeHTMLspec]
  split
  · next c2 r2 heq => rw [hs] at heq; cases heq
  · rfl

theorem isPrefixOf_append_self (p t : List Char) : p.isPrefixOf (p ++ t) = true :=
  List.isPrefixOf_iff_prefix.mpr (List.prefix_append _ t)

theorem unescape_amp (t : List Char) :
    unescapeHTMLspec (ampEnt ++ t) = '&' :: unescapeHTMLspec t := by
  have hs : entStep (ampEnt ++ t) = some ('&', t) := by
    unfold entStep
    rw [if_pos (isPrefixOf_append_self ampEnt t), List.drop_left]
  exact unescape_of_entStep_some hs

theorem unescape_lt (t : List Char) :
    unescapeHTMLspec (ltEnt ++ t) = '<' :: unescapeHTMLspec t := by
  have hs : entStep (ltEnt ++ t) = some ('<', t) := by
    unfold entStep
    rw [if_neg (by simp [ampEnt, ltEnt, List.isPrefixOf_cons₂]),
      if_pos (isPrefixOf_append_self ltEnt t), List.drop_left]
  exact unescape_of_entStep_some hs

theorem unescape_gt (t : List Char) :
    unescapeHTMLspec (gtEnt ++ t) = '>' :: unescapeHTMLspec t := by
  have hs : entStep (gtEnt ++ t) = some ('>', t) := by
    unfold entStep
    rw [if_neg (by simp [ampEnt, gtEnt, List.isPrefixOf_cons₂]),
      if_neg (by simp [ltEnt, gtEnt, List.isPrefixOf_cons₂]),
      if_pos (isPrefixOf_append_self gtEnt t), List.drop_left]
  exact unescape_of_entStep_some hs

theorem unescape_quot (t : List Char) :
    unescapeHTMLspec (quotEnt ++ t) = quotChar :: unescapeHTMLspec t := by
  have hs : entStep (quotEnt ++ t) = some (quotChar, t) := by
    unfold entStep
    rw [if_neg (by simp [ampEnt, quotEnt, List.isPrefixOf_cons₂]),
      if_neg (by simp [ltEnt, quotEnt, List.isPrefixOf_cons₂]),
      if_neg (by simp [gtEnt, quotEnt, List.isPrefixOf_cons₂]),
      if_pos (isPrefixOf_append_self quotEnt t), List.drop_left]
  exact unescape_of_entStep_some hs

theorem unescape_apos (t : List Char) :
    unescapeHTMLspec (aposEnt ++ t) = aposChar :: unescapeHTMLspec t := by
  have hs : entStep (aposEnt ++ t) = some (aposChar, t) := by
    unfold entStep
    rw [if_neg (by simp [ampEnt, aposEnt, List.isPrefixOf_cons₂]),
      if_neg (by simp [ltEnt, aposEnt, List.isPrefixOf_cons₂]),
      if_neg (by simp [gtEnt, aposEnt, List.isPrefixOf_cons₂]),
      if_neg (by simp [quotEnt, aposEnt, List.isPrefixOf_cons₂]),
      if_pos (isPrefixOf_append_self aposEnt t), List.drop_left]
  exact unescape_of_entStep_some hs

theorem unescape_escChar (c : Char) (t : List Char) :
    unescapeHTMLspec (escChar c ++ t) = c :: unescapeHTMLspec t := by
  by_cases h1 : c = '&'
  · subst h1
    rw [show escChar '&' = ampEnt from rfl]
    exact unescape_amp t
  · by_cases h2 : c = '<'
    · subst h2
      rw [show escChar '<' = ltEnt from rfl]
      exact unescape_lt t
    · by_cases h3 : c = '>'
      · subst h3
        rw [show escChar '>' = gtEnt from rfl]
        exact unescape_gt t
      · by_cases h4 : c = quotChar
        · subst h4
          rw [show escChar quotChar = quotEnt by
            simp [escChar, show quotChar ≠ '&' by decide,
              show quotChar ≠ '<' by decide, show quotChar ≠ '>' by decide]]
          exact unescape_quot t
        · by_cases h5 : c = aposChar
          · subst h5
            rw [show escChar aposChar = aposEnt by
              simp [escChar, show aposChar ≠ '&' by decide,
                show aposChar ≠ '<' by decide, show aposChar ≠ '>' by decide,
                show aposChar ≠ quotChar by decide]]
            exact unescape_apos t
          · have : escChar c = [c] := by simp [escChar, h1, h2, h3, h4, h5]
            rw [this]
            exact unescape_cons_of_ne c t h1

/-- Escaping and then unescaping restores the original text. -/
theorem unescape_escape (l : List Char) :
    unescapeHTMLspec (escapeHTML l) = l := by
  induction l with
  | nil => rw [escapeHTML_nil, unescape_nil]
  | cons c t ih => rw [escapeHTML_cons, unescape_escChar, ih]

/-! ### Highlight ranges (`applyHighlights`, main.js 806-874, text-page path) -/

/-- A clamped highlight range `{ s, e }` (main.js 850). -/
structure IRange where
  s : Int
  e : Int
deriving DecidableEq, Repr

/-- One element of the `matches` array as consumed by the text path of
`applyHighlights`: `char_start` / `char_end` are `none` when the field is
absent or not a number (the `typeof ... === 'number'` filter, main.js 849). -/
structure HMatch where
  char_start : Option Int := none
  char_end : Option Int := none
deriving DecidableEq, Repr

/-- The comparator `(a,b) => a.s - b.s || a.e - b.e` (main.js 852), as the
"comparator ≤ 0" relation used by the stable sort. -/
def rangeLe (a b : IRange) : Prop :=
  a.s < b.s ∨ (a.s = b.s ∧ a.e ≤ b.e)

instance : DecidableRel rangeLe := fun a b =>
  decidable_of_iff (a.s < b.s ∨ (a.s = b.s ∧ a.e ≤ b.e)) Iff.rfl

/-- main.js 848-852: keep matches with numeric offsets, clamp each span to
`[0, len]`, drop empty spans, and stably sort by `(s, e)`. -/
def collectRanges (list : List HMatch) (len : Nat) : List IRange :=
  List.insertionSort rangeLe
    (((list.filter fun m => m.char_start.isSome && m.char_end.isSome).map
        fun m => { s := max 0 (m.char_start.getD 0),
                   e := min (len : Int) (m.char_end.getD 0) : IRange }).filter
      fun r => decide (r.s < r.e))

/-- One iteration of the merge loop (main.js 855-861): a new range is pushed
when it starts strictly after the current last merged range ends, otherwise
the last range is extended.  The accumulator is kept most-recent-first. -/
def mergeStep (acc : List IRange) (r : IRange) : List IRange :=
  match acc with
  | [] => [r]
  | last :: rest =>
    if last.e < r.s then r :: last :: rest
    else { s := last.s, e := max last.e r.e } :: rest

/-- The merge loop over the sorted range list (main.js 854-861). -/
def mergeRanges (rs : List IRange) : List IRange :=
  (rs.foldl mergeStep []).reverse

/-- The merged range list `applyHighlights` computes for one text page
(main.js 848-861). -/
def computeMerged (list : List HMatch) (len : Nat) : List IRange :=
  mergeRanges (collectRanges list len)

/-! ### Invariants of the merged range list -/

/-- A clamped range is valid for a page text of length `len`. -/
def ValidRange (len : Nat) (r : IRange) : Prop :=
  0 ≤ r.s ∧ r.s < r.e ∧ r.e ≤ (len : Int)

theorem rangeLe_s_le {a b : IRange} (h : rangeLe a b) : a.s ≤ b.s := by
  rcases h with h | ⟨h, _⟩
  · exact le_of_lt h
  · exact le_of_eq h

instance : IsTotal IRange rangeLe :=
  ⟨by intro a b; simp only [rangeLe]; omega⟩

instance : IsTrans IRange rangeLe :=
  ⟨by intro a b c; simp only [rangeLe]; omega⟩

theorem collectRanges_sorted (list : List HMatch) (len : Nat) :
    (collectRanges list len).Sorted rangeLe :=
  List.sorted_insertionSort rangeLe _

theorem collectRanges_valid (list : List HMatch) (len : Nat) :
    ∀ r ∈ collectRanges list len, ValidRange len r := by
  intro r hr
  rw [collectRanges, List.mem_insertionSort] at hr
  rw [List.mem_filter] at hr
  obtain ⟨hmap, hlt⟩ := hr
  rw [List.mem_map] at hmap
  obtain ⟨m, _, rfl⟩ := hmap
  refine ⟨le_max_left _ _, ?_, min_le_left _ _⟩
  simpa using hlt

/-- Invariant of the merge loop: starting from a valid accumulator (kept in
reverse order) and a sorted list of valid ranges whose starts are at least
the accumulator head's start, the fold yields valid, reverse-chained
ranges. -/
theorem merge_foldl_invariant (len : Nat) :
    ∀ (rest acc : List IRange),
      (∀ r ∈ rest, ValidRange len r) →
      rest.Pairwise rangeLe →
      (∀ r ∈ acc, ValidRange len r) →
      acc.Chain' (fun a b => b.e < a.s) →
      (∀ hd tl, acc = hd :: tl → ∀ r ∈ rest, hd.s ≤ r.s) →
      (∀ r ∈ rest.foldl mergeStep acc, ValidRange len r) ∧
        (rest.foldl mergeStep acc).Chain' (fun a b => b.e < a.s) := by
  intro rest
  induction rest with
  | nil =>
    intro acc _ _ h3 h4 _
    exact ⟨h3, h4⟩
  | cons r rest ih =>
    intro acc h1 h2 h3 h4 h5
    rw [List.foldl_cons]
    have hrv : ValidRange len r := h1 r (List.mem_cons_self _ _)
    have h1' : ∀ x ∈ rest, ValidRange len x := fun x hx => h1 x (List.mem_cons_of_mem _ hx)
    have h2' : rest.Pairwise rangeLe := h2.of_cons
    have hrle : ∀ x ∈ rest, r.s ≤ x.s := fun x hx =>
      rangeLe_s_le ((List.pairwise_cons.mp h2).1 x hx)
    cases acc with
    | nil =>
      apply ih [r] h1' h2'
      · intro x hx
        rw [List.mem_singleton] at hx
        subst hx; exact hrv
      · exact List.chain'_singleton r
      · intro hd tl heq x hx
        cases heq
        exact hrle x hx
    | cons hAcc tAcc =>
      have hhv : ValidRange len hAcc := h3 hAcc (List.mem_cons_self _ _)
      have hhead : ∀ x ∈ r :: rest, hAcc.s ≤ x.s := h5 hAcc tAcc rfl
      by_cases hlt : hAcc.e < r.s
      · have hms : mergeStep (hAcc :: tAcc) r = r :: hAcc :: tAcc := by
          simp [mergeStep, hlt]
        rw [hms]
        apply ih (r :: hAcc :: tAcc) h1' h2'
        · intro x hx
          rcases List.mem_cons.mp hx with rfl | hx2
          · exact hrv
          · exact h3 x hx2
        · exact List.chain'_cons.mpr ⟨hlt, h4⟩
        · intro hd tl heq x hx
          cases heq
          exact hrle x hx
      · have hms : mergeStep (hAcc :: tAcc) r =
            { s := hAcc.s, e := max hAcc.e r.e } :: tAcc := by
          simp [mergeStep, hlt]
        rw [hms]
        apply ih _ h1' h2'
        · intro x hx
          rcases List.mem_cons.mp hx with rfl | hx2
          · refine ⟨hhv.1, ?_, ?_⟩
            · exact lt_of_lt_of_le hhv.2.1 (le_max_left _ _)
            · exact max_le hhv.2.2 hrv.2.2
          · exact h3 x (List.mem_cons_of_mem _ hx2)
        · cases tAcc with
          | nil => exact List.chain'_singleton _
          | cons h2Acc t2Acc =>
            have := List.chain'_cons.mp h4
            exact List.chain'_cons.mpr ⟨this.1, this.2⟩
        · intro hd tl heq x hx
          cases heq
          exact hhead x (List.mem_cons_of_mem _ hx)

theorem computeMerged_props (ms : List HMatch) (len : Nat) :
    (∀ r ∈ computeMerged ms len, ValidRange len r) ∧
      (computeMerged ms len).Chain' (fun a b => a.e < b.s) := by
  have hs := collectRanges_sorted ms len
  have hv := collectRanges_valid ms len
  have key := merge_foldl_invariant len (collectRanges ms len) []
    hv hs (by intro r hr; cases hr) List.chain'_nil
    (by intro hd tl heq; cases heq)
  constructor
  · intro r hr
    rw [computeMerged, mergeRanges, List.mem_reverse] at hr
    exact key.1 r hr
  · rw [computeMerged, mergeRanges]
    rw [List.chain'_reverse]
    exact key.2

theorem chain'_imp_mem {α : Type} {R Q : α → α → Prop} {P : α → Prop} :
    ∀ {l : List α}, l.Chain' R → (∀ a ∈ l, P a) →
      (∀ a b, P a → P b → R a b → Q a b) → l.Chain' Q := by
  intro l
  induction l with
  | nil => intro _ _ _; exact List.chain'_nil
  | cons a t ih =>
    intro hc hm himp
    cases t with
    | nil => exact List.chain'_singleton a
    | cons b t2 =>
      obtain ⟨hab, hrest⟩ := List.chain'_cons.mp hc
      refine List.chain'_cons.mpr ⟨?_, ?_⟩
      · exact himp a b (hm a (List.mem_cons_self _ _))
          (hm b (List.mem_cons_of_mem _ (List.mem_cons_self _ _))) hab
      · exact ih hrest (fun x hx => hm x (List.mem_cons_of_mem _ hx)) himp

/-! ### Rebuilding the paragraph markup (main.js 862-871) -/

/-- `text.slice(a, b)` for `0 ≤ a ≤ b` (natural-number indices). -/
def sliceN (l : List Char) (a b : Nat) : List Char :=
  (l.drop a).take (b - a)

/-- `text.slice(a, b)` with the integer offsets the merge step produces. -/
def sliceI (l : List Char) (a b : Int) : List Char :=
  sliceN l a.toNat b.toNat

theorem sliceN_self (l : List Char) (a : Nat) : sliceN l a a = [] := by
  simp [sliceN]

theorem sliceN_append (l : List Char) {a b c : Nat} (hab : a ≤ b) (hbc : b ≤ c) :
    sliceN l a b ++ sliceN l b c = sliceN l a c := by
  unfold sliceN
  have hc : c - a = (b - a) + (c - b) := by omega
  rw [hc, List.take_add, List.drop_drop]
  have hb : a + (b - a) = b := by omega
  rw [hb]

theorem sliceN_zero_length (l : List Char) : sliceN l 0 l.length = l := by
  simp [sliceN]

theorem sliceI_append (l : List Char) {a b c : Int} (h0 : 0 ≤ a) (hab : a ≤ b)
    (hbc : b ≤ c) : sliceI l a b ++ sliceI l b c = sliceI l a c := by
  unfold sliceI
  exact sliceN_append l (Int.toNat_le_toNat hab) (Int.toNat_le_toNat hbc)

/-- The literal `<mark class="bg-yellow-200 risk-hl" title="Risk Highlight">`
(main.js 867). -/
def markOpenStr : List Char :=
  ['<', 'm', 'a', 'r', 'k', ' ', 'c', 'l', 'a', 's', 's', '=', quotChar, 'b',
   'g', '-', 'y', 'e', 'l', 'l', 'o', 'w', '-', '2', '0', '0', ' ', 'r', 'i',
   's', 'k', '-', 'h', 'l', quotChar, ' ', 't', 'i', 't', 'l', 'e', '=',
   quotChar, 'R', 'i', 's', 'k', ' ', 'H', 'i', 'g', 'h', 'l', 'i', 'g', 'h',
   't', quotChar, '>']

/-- The literal `</mark>`. -/
def markCloseStr : List Char := ['<', '/', 'm', 'a', 'r', 'k', '>']

/-- The html-building loop of the text-highlight path (main.js 862-870):
escaped plain text interleaved with `<mark>`-wrapped escaped span text,
followed by the escaped tail (main.js 870). -/
def rebuildLoop (text : List Char) (pos : Int) : List IRange → List Char
  | [] =>
    if pos < (text.length : Int) then
      escapeHTML (sliceI text pos (text.length : Int))
    else []
  | r :: rest =>
    (if pos < r.s then escapeHTML (sliceI text pos r.s) else []) ++
      markOpenStr ++ escapeHTML (sliceI text r.s r.e) ++ markCloseStr ++
      rebuildLoop text r.e rest

/-- The markup `applyHighlights` assigns to `p.innerHTML` for one text page
(main.js 862-871). -/
def rebuildHtml (text : List Char) (merged : List IRange) : List Char :=
  rebuildLoop text 0 merged

/-- One tag-skipping step of the markup decoder: drop a leading `<mark ...>`
or `</mark>` tag. -/
def tagStep (l : List Char) : Option (List Char) :=
  if markOpenStr.isPrefixOf l then some (l.drop markOpenStr.length)
  else if markCloseStr.isPrefixOf l then some (l.drop markCloseStr.length)
  else none

theorem tagStep_length {l r : List Char} (h : tagStep l = some r) :
    r.length < l.length := by
  have key : ∀ p : List Char, p ≠ [] → p.isPrefixOf l →
      (l.drop p.length).length < l.length := by
    intro p hp hpre
    have hpre2 : p <+: l := List.isPrefixOf_iff_prefix.mp hpre
    have hlen : p.length ≤ l.length := hpre2.length_le
    have hpos : 0 < p.length := List.length_pos.mpr hp
    simp only [List.length_drop]
    omega
  unfold tagStep at h
  split_ifs at h with h1 h2
  · cases h; exact key _ (by simp [markOpenStr]) h1
  · cases h; exact key _ (by simp [markCloseStr]) h2

/-- Decoder reading back the markup built by `rebuildLoop`: skip the two mark
tags, decode the five entities `escapeHTML` emits, and copy everything
else. -/
def decodeMarkup (l : List Char) : List Char :=
  match h0 : tagStep l with
  | some rest => decodeMarkup rest
  | none =>
    match h1 : entStep l with
    | some (c, rest) => c :: decodeMarkup rest
    | none =>
      match l with
      | c :: rest => c :: decodeMarkup rest
      | [] => []
termination_by l.length
decreasing_by
  · exact tagStep_length h0
  · exact entStep_length h1
  · simp

theorem tagStep_cons_of_ne (c : Char) (t : List Char) (h : c ≠ '<') :
    tagStep (c :: t) = none := by
  unfold tagStep
  simp [markOpenStr, markCloseStr, List.isPrefixOf_cons₂, Ne.symm h]

theorem decode_nil : decodeMarkup [] = [] := by
  rw [decodeMarkup]
  split
  · next r heq => simp [tagStep, markOpenStr, markCloseStr] at heq
  · split
    · next c r heq => simp [entStep, ampEnt, ltEnt, gtEnt, quotEnt, aposEnt] at heq
    · rfl

theorem decode_tag_some {l r : List Char} (h : tagStep l = some r) :
    decodeMarkup l = decodeMarkup r := by
  rw [decodeMarkup]
  split
  · next r2 heq => rw [h] at heq; cases heq; rfl
  · next heq => rw [h] at heq; cases heq

theorem decode_ent_some {l : List Char} {c : Char} {r : List Char}
    (h0 : tagStep l = none) (h : entStep l = some (c, r)) :
    decodeMarkup l = c :: decodeMarkup r := by
  rw [decodeMarkup]
  split
  · next r2 heq => rw [h0] at heq; cases heq
  · split
    · next c2 r2 heq => rw [h] at heq; cases heq; rfl
    · next heq => rw [h] at heq; cases heq

theorem entStep_cons_of_ne (c : Char) (t : List Char) (h : c ≠ '&') :
    entStep (c :: t) = none := by
  unfold entStep
  simp [ampEnt, ltEnt, gtEnt, quotEnt, aposEnt, List.isPrefixOf_cons₂, Ne.symm h]

theorem decode_cons_plain (c : Char) (t : List Char) (h1 : c ≠ '<')
    (h2 : c ≠ '&') : decodeMarkup (c :: t) = c :: decodeMarkup t := by
  rw [decodeMarkup]
  split
  · next r heq => rw [tagStep_cons_of_ne c t h1] at heq; cases heq
  · split
    · next c2 r2 heq => rw [entStep_cons_of_ne c t h2] at heq; cases heq
    · rfl

theorem entStep_amp (t : List Char) : entStep (ampEnt ++ t) = some ('&', t) := by
  unfold entStep
  rw [if_pos (isPrefixOf_append_self ampEnt t), List.drop_left]

theorem entStep_lt (t : List Char) : entStep (ltEnt ++ t) = some ('<', t) := by
  unfold entStep
  rw [if_neg (by simp [ampEnt, ltEnt, List.isPrefixOf_cons₂]),
    if_pos (isPrefixOf_append_self ltEnt t), List.drop_left]

theorem entStep_gt (t : List Char) : entStep (gtEnt ++ t) = some ('>', t) := by
  unfold entStep
  rw [if_neg (by simp [ampEnt, gtEnt, List.isPrefixOf_cons₂]),
    if_neg (by simp [ltEnt, gtEnt, List.isPrefixOf_cons₂]),
    if_pos (isPrefixOf_append_self gtEnt t), List.drop_left]

theorem entStep_quot (t : List Char) :
    entStep (quotEnt ++ t) = some (quotChar, t) := by
  unfold entStep
  rw [if_neg (by simp [ampEnt, quotEnt, List.isPrefixOf_cons₂]),
    if_neg (by simp [ltEnt, quotEnt, List.isPrefixOf_cons₂]),
    if_neg (by simp [gtEnt, quotEnt, List.isPrefixOf_cons₂]),
    if_pos (isPrefixOf_append_self quotEnt t), List.drop_left]

theorem entStep_apos (t : List Char) :
    entStep (aposEnt ++ t) = some (aposChar, t) := by
  unfold entStep
  rw [if_neg (by simp [ampEnt, aposEnt, List.isPrefixOf_cons₂]),
    if_neg (by simp [ltEnt, aposEnt, List.isPrefixOf_cons₂]),
    if_neg (by simp [gtEnt, aposEnt, List.isPrefixOf_cons₂]),
    if_neg (by simp [quotEnt, aposEnt, List.isPrefixOf_cons₂]),
    if_pos (isPrefixOf_append_self aposEnt t), List.drop_left]

theorem tagStep_entity (ent : List Char) (t : List Char)
    (h : ent = ampEnt ∨ ent = ltEnt ∨ ent = gtEnt ∨ ent = quotEnt ∨
      ent = aposEnt) : tagStep (ent ++ t) = none := by
  rcases h with rfl | rfl | rfl | rfl | rfl <;>
    exact tagStep_cons_of_ne _ _ (by decide) |>.trans rfl

theorem decode_escChar (c : Char) (t : List Char) :
    decodeMarkup (escChar c ++ t) = c :: decodeMarkup t := by
  by_cases h1 : c = '&'
  · subst h1
    rw [show escChar '&' = ampEnt from rfl]
    exact decode_ent_some (tagStep_entity _ t (Or.inl rfl)) (entStep_amp t)
  · by_cases h2 : c = '<'
    · subst h2
      rw [show escChar '<' = ltEnt from rfl]
      exact decode_ent_some (tagStep_entity _ t (Or.inr (Or.inl rfl)))
        (entStep_lt t)
    · by_cases h3 : c = '>'
      · subst h3
        rw [show escChar '>' = gtEnt from rfl]
        exact decode_ent_some (tagStep_entity _ t (Or.inr (Or.inr (Or.inl rfl))))
          (entStep_gt t)
      · by_cases h4 : c = quotChar
        · subst h4
          rw [show escChar quotChar = quotEnt by
            simp [escChar, show quotChar ≠ '&' by decide,
              show quotChar ≠ '<' by decide, show quotChar ≠ '>' by decide]]
          exact decode_ent_some
            (tagStep_entity _ t (Or.inr (Or.inr (Or.inr (Or.inl rfl)))))
            (entStep_quot t)
        · by_cases h5 : c = aposChar
          · subst h5
            rw [show escChar aposChar = aposEnt by
              simp [escChar, show aposChar ≠ '&' by decide,
                show aposChar ≠ '<' by decide, show aposChar ≠ '>' by decide,
                show aposChar ≠ quotChar by decide]]
            exact decode_ent_some
              (tagStep_entity _ t (Or.inr (Or.inr (Or.inr (Or.inr rfl)))))
              (entStep_apos t)
          · have he : escChar c = [c] := by simp [escChar, h1, h2, h3, h4, h5]
            rw [he, List.singleton_append]
            exact decode_cons_plain c t h2 h1

theorem decode_escape_append (t rest : List Char) :
    decodeMarkup (escapeHTML t ++ rest) = t ++ decodeMarkup rest := by
  induction t with
  | nil => rw [escapeHTML_nil, List.nil_append, List.nil_append]
  | cons c t ih =>
    rw [escapeHTML_cons, List.append_assoc, decode_escChar, ih, List.cons_append]

theorem decode_markOpen (t : List Char) :
    decodeMarkup (markOpenStr ++ t) = decodeMarkup t := by
  apply decode_tag_some
  unfold tagStep
  rw [if_pos (isPrefixOf_append_self markOpenStr t), List.drop_left]

theorem decode_markClose (t : List Char) :
    decodeMarkup (markCloseStr ++ t) = decodeMarkup t := by
  apply decode_tag_some
  unfold tagStep
  rw [if_neg (by simp [markOpenStr, markCloseStr, List.isPrefixOf_cons₂]),
    if_pos (isPrefixOf_append_self markCloseStr t), List.drop_left]

theorem sliceI_self (l : List Char) (a : Int) : sliceI l a a = [] :=
  sliceN_self l a.toNat

/-- Decoding the markup `rebuildLoop` builds from position `pos` yields the
page text from `pos` on, provided the ranges are valid, start at or after
`pos`, and are disjoint and increasing. -/
theorem decode_rebuildLoop (text : List Char) :
    ∀ (m : List IRange) (pos : Int), 0 ≤ pos → pos ≤ (text.length : Int) →
      (∀ r ∈ m, ValidRange text.length r) →
      (∀ hd, m.head? = some hd → pos ≤ hd.s) →
      m.Chain' (fun a b => a.e < b.s) →
      decodeMarkup (rebuildLoop text pos m) = sliceI text pos (text.length : Int) := by
  intro m
  induction m with
  | nil =>
    intro pos h0 hlen _ _ _
    rw [rebuildLoop]
    by_cases hp : pos < (text.length : Int)
    · rw [if_pos hp, ← List.append_nil (escapeHTML _), decode_escape_append,
        decode_nil, List.append_nil]
    · have : pos = (text.length : Int) := le_antisymm hlen (not_lt.mp hp)
      rw [if_neg hp, decode_nil, this, sliceI_self]
  | cons r m ih =>
    intro pos h0 hlen hv hhd hch
    have hrv : ValidRange text.length r := hv r (List.mem_cons_self _ _)
    have hps : pos ≤ r.s := hhd r rfl
    rw [rebuildLoop]
    have hif : (if pos < r.s then escapeHTML (sliceI text pos r.s) else []) =
        escapeHTML (sliceI text pos r.s) := by
      by_cases h : pos < r.s
      · rw [if_pos h]
      · have : pos = r.s := le_antisymm hps (not_lt.mp h)
        rw [if_neg h, this, sliceI_self, escapeHTML_nil]
    rw [hif, List.append_assoc, List.append_assoc, List.append_assoc,
      decode_escape_append, decode_markOpen, decode_escape_append,
      decode_markClose]
    have hrec : decodeMarkup (rebuildLoop text r.e m) =
        sliceI text r.e (text.length : Int) := by
      apply ih r.e (le_trans hrv.1 (le_of_lt hrv.2.1)) hrv.2.2
      · intro x hx; exact hv x (List.mem_cons_of_mem _ hx)
      · intro hd hhd2
        cases m with
        | nil => cases hhd2
        | cons b m2 =>
          cases hhd2
          exact le_of_lt (List.chain'_cons.mp hch).1
      · exact hch.tail
    rw [hrec]
    have hmid : sliceI text r.s r.e ++ sliceI text r.e (text.length : Int) =
        sliceI text r.s (text.length : Int) :=
      sliceI_append text hrv.1 (le_of_lt hrv.2.1) hrv.2.2
    rw [hmid]
    exact sliceI_append text h0 hps (le_trans (le_of_lt hrv.2.1) hrv.2.2)

/-- The spans `(2,5)`, `(4,8)`, `(10,12)` from the spec's example. -/
def demoMatches : List HMatch :=
  [{ char_start := some 2, char_end := some 5 },
   { char_start := some 4, char_end := some 8 },
   { char_start := some 10, char_end := some 12 }]

theorem sliceI_zero_length (l : List Char) : sliceI l 0 (l.length : Int) = l := by
  unfold sliceI
  have h1 : (0 : Int).toNat = 0 := rfl
  have h2 : ((l.length : Int)).toNat = l.length := Int.toNat_natCast _
  rw [h1, h2]
  exact sliceN_zero_length l



/-! ### `renderInlineMarkdown` (main.js 224-226) -/

/-- The `<strong>` tag the markdown replace inserts. -/
def strongOpen : List Char := ['<', 's', 't', 'r', 'o', 'n', 'g', '>']

/-- The `</strong>` tag the markdown replace inserts. -/
def strongClose : List Char := ['<', '/', 's', 't', 'r', 'o', 'n', 'g', '>']

/-- Search for the closing `**` of a `\*\*(.+?)\*\*` match: scan left to
right accumulating content (reversed in `acc`); the lazy `.+?` requires at
least one content character and cannot cross a newline. -/
def rimClose : List Char → List Char → Option (List Char × List Char)
  | acc, '*' :: '*' :: rest =>
    if acc.isEmpty then rimClose ('*' :: acc) ('*' :: rest)
    else some (acc.reverse, rest)
  | acc, c :: rest => if c = '\n' then none else rimClose (c :: acc) rest
  | _, [] => none
termination_by _ l => l.length
decreasing_by all_goals simp_arith

theorem rimClose_spec :
    ∀ (acc l content rest : List Char), rimClose acc l = some (content, rest) →
      content ++ '*' :: '*' :: rest = acc.reverse ++ l := by
  intro acc l
  induction acc, l using rimClose.induct with
  | case1 acc rest hemp ih =>
    intro content rest' h
    rw [rimClose, if_pos hemp] at h
    have := ih content rest' h
    rw [this]
    simp
  | case2 acc rest hemp =>
    intro content rest' h
    rw [rimClose, if_neg hemp] at h
    cases h
    simp
  | case3 acc rest hpat =>
    intro content rest' h
    simp [rimClose] at h
  | case4 acc c rest hpat hnl ih =>
    intro content rest' h
    rw [rimClose] at h
    split at h
    · cases h
    · have heq := ih content rest' h
      rw [heq]
      simp
    · exact hpat
  | case5 x =>
    intro content rest' h
    rw [rimClose] at h
    cases h

theorem rimClose_nil_length {rest content rest' : List Char}
    (h : rimClose [] rest = some (content, rest')) :
    rest'.length + 2 ≤ rest.length := by
  have hs := rimClose_spec [] rest content rest' h
  simp at hs
  have hlen : rest.length = content.length + (rest'.length + 2) := by
    rw [← hs]
    simp
  omega

/-- `renderInlineMarkdown` (main.js 224-226):
`str.replace(/\*\*(.+?)\*\*/g, '<strong>$1</strong>')` — at each position,
an opening `**` followed by a lazily-matched non-empty, newline-free content
and a closing `**` is replaced by `<strong>content</strong>`; otherwise one
character is copied and scanning continues. -/
def renderInlineMarkdown : List Char → List Char
  | '*' :: '*' :: rest =>
    match h : rimClose [] rest with
    | some (content, rest') =>
      strongOpen ++ content ++ strongClose ++ renderInlineMarkdown rest'
    | none => '*' :: renderInlineMarkdown ('*' :: rest)
  | c :: rest => c :: renderInlineMarkdown rest
  | [] => []
termination_by l => l.length
decreasing_by
  all_goals first
    | (have hlen := rimClose_nil_length h; simp; omega)
    | simp

theorem rim_nil : renderInlineMarkdown [] = [] := by
  rw [renderInlineMarkdown]

theorem rim_close_some {rest content rest' : List Char}
    (h : rimClose [] rest = some (content, rest')) :
    renderInlineMarkdown ('*' :: '*' :: rest) =
      strongOpen ++ content ++ strongClose ++ renderInlineMarkdown rest' := by
  rw [renderInlineMarkdown]
  split
  · next c2 r2 heq => rw [h] at heq; cases heq; rfl
  · next heq => rw [h] at heq; cases heq

theorem rim_close_none {rest : List Char} (h : rimClose [] rest = none) :
    renderInlineMarkdown ('*' :: '*' :: rest) =
      '*' :: renderInlineMarkdown ('*' :: rest) := by
  rw [renderInlineMarkdown]
  split
  · next c2 r2 heq => rw [h] at heq; cases heq
  · rfl

theorem rim_cons_nopat {c : Char} {rest : List Char}
    (hpat : ∀ r1 : List Char, c = '*' → rest = '*' :: r1 → False) :
    renderInlineMarkdown (c :: rest) = c :: renderInlineMarkdown rest := by
  rw [renderInlineMarkdown]
  exact hpat

theorem rim_cons_of_ne {c : Char} {rest : List Char} (hc : c ≠ '*') :
    renderInlineMarkdown (c :: rest) = c :: renderInlineMarkdown rest :=
  rim_cons_nopat (fun _ hc2 _ => hc hc2)

theorem rim_single_star : renderInlineMarkdown ['*'] = '*' :: renderInlineMarkdown [] :=
  rim_cons_nopat (fun _ _ habs => by cases habs)

theorem rim_star_cons_of_ne {d : Char} {rest : List Char} (hd : d ≠ '*') :
    renderInlineMarkdown ('*' :: d :: rest) = '*' :: renderInlineMarkdown (d :: rest) :=
  rim_cons_nopat (fun r1 _ habs => hd (by cases habs; rfl))

theorem rim_append_nostar {t : List Char} (ht : ∀ c ∈ t, c ≠ '*') (r : List Char) :
    renderInlineMarkdown (t ++ r) = t ++ renderInlineMarkdown r := by
  induction t with
  | nil => simp
  | cons c t' ih =>
    have hc : c ≠ '*' := ht c (List.mem_cons_self _ _)
    rw [List.cons_append, rim_cons_of_ne hc,
      ih (fun x hx => ht x (List.mem_cons_of_mem _ hx))]
    rfl

inductive SafeOut : List Char → Prop
  | nil : SafeOut []
  | chr {c : Char} {t : List Char} : c ≠ '<' → SafeOut t → SafeOut (c :: t)
  | tagOpen {t : List Char} : SafeOut t → SafeOut (strongOpen ++ t)
  | tagClose {t : List Char} : SafeOut t → SafeOut (strongClose ++ t)

theorem SafeOut.append_nolt {t r : List Char} (ht : ∀ c ∈ t, c ≠ '<')
    (hr : SafeOut r) : SafeOut (t ++ r) := by
  induction t with
  | nil => simpa using hr
  | cons c t' ih =>
    rw [List.cons_append]
    exact SafeOut.chr (ht c (List.mem_cons_self _ _))
      (ih (fun x hx => ht x (List.mem_cons_of_mem _ hx)))

theorem rim_safe {l : List Char} (hl : ∀ c ∈ l, c ≠ '<') :
    SafeOut (renderInlineMarkdown l) := by
  induction l using renderInlineMarkdown.induct with
  | case1 rest content rest' h ih =>
    have hspec := rimClose_spec [] rest content rest' h
    simp at hspec
    have hrest : ∀ c ∈ rest, c ≠ '<' := fun x hx =>
      hl x (List.mem_cons_of_mem _ (List.mem_cons_of_mem _ hx))
    rw [rim_close_some h, List.append_assoc, List.append_assoc]
    refine SafeOut.tagOpen (SafeOut.append_nolt ?_ (SafeOut.tagClose (ih ?_)))
    · intro x hx
      exact hrest x (hspec ▸ List.mem_append_left _ hx)
    · intro x hx
      refine hrest x (hspec ▸ ?_)
      exact List.mem_append_right _ (List.mem_cons_of_mem _ (List.mem_cons_of_mem _ hx))
  | case2 rest h ih =>
    rw [rim_close_none h]
    refine SafeOut.chr (by decide) (ih ?_)
    intro x hx
    rcases List.mem_cons.mp hx with rfl | hx2
    · decide
    · exact hl x (List.mem_cons_of_mem _ (List.mem_cons_of_mem _ hx2))
  | case3 c rest hpat ih =>
    rw [rim_cons_nopat hpat]
    exact SafeOut.chr (hl c (List.mem_cons_self _ _))
      (ih (fun x hx => hl x (List.mem_cons_of_mem _ hx)))
  | case4 =>
    rw [rim_nil]
    exact SafeOut.nil

theorem prefix_through_append {tok b : List Char} {d : Char} (hd : d ∉ tok) :
    ∀ (a : List Char), tok <+: a ++ d :: b → tok <+: a := by
  intro a
  induction a generalizing tok with
  | nil =>
    intro h
    cases tok with
    | nil => exact List.nil_prefix
    | cons t ts =>
      rw [List.nil_append] at h
      obtain ⟨heq, _⟩ := List.cons_prefix_cons.mp h
      exact absurd (heq ▸ List.mem_cons_self t ts) hd
  | cons x a' ih =>
    intro h
    cases tok with
    | nil => exact List.nil_prefix
    | cons t ts =>
      rw [List.cons_append] at h
      obtain ⟨heq, hts⟩ := List.cons_prefix_cons.mp h
      subst heq
      have hd2 : d ∉ ts := fun hmem => hd (List.mem_cons_of_mem _ hmem)
      exact List.cons_prefix_cons.mpr ⟨rfl, ih hd2 hts⟩

theorem infix_split_delim {tok b : List Char} {d : Char} (hne : tok ≠ [])
    (hd : d ∉ tok) :
    ∀ (a : List Char), tok <:+: a ++ d :: b → tok <:+: a ∨ tok <:+: b := by
  intro a
  induction a with
  | nil =>
    intro h
    rw [List.nil_append] at h
    rcases List.infix_cons_iff.mp h with hpre | hinf
    · have h0 : tok <+: ([] : List Char) :=
        prefix_through_append hd [] (by simpa using hpre)
      rw [List.prefix_nil] at h0
      exact absurd h0 hne
    · exact Or.inr hinf
  | cons x a' ih =>
    intro h
    rw [List.cons_append] at h
    rcases List.infix_cons_iff.mp h with hpre | hinf
    · left
      exact (prefix_through_append hd (x :: a') (by simpa using hpre)).isInfix
    · rcases ih hinf with h1 | h2
      · left
        exact List.infix_cons h1
      · exact Or.inr h2

theorem infix_append_cases {tok t : List Char} :
    ∀ (a : List Char), tok <:+: a ++ t →
      (∃ k, k < a.length ∧ tok <+: List.drop k a ++ t) ∨ tok <:+: t := by
  intro a
  induction a with
  | nil =>
    intro h
    right
    simpa using h
  | cons x a' ih =>
    intro h
    rw [List.cons_append] at h
    rcases List.infix_cons_iff.mp h with hpre | hinf
    · left
      exact ⟨0, by simp, by simpa using hpre⟩
    · rcases ih hinf with ⟨k, hk, hp⟩ | ht
      · left
        refine ⟨k + 1, by simp; omega, ?_⟩
        simpa using hp
      · exact Or.inr ht

def scriptTok : List Char := ['<', 's', 'c', 'r', 'i', 'p', 't', '>']

def scriptEsc : List Char :=
  ['&', 'l', 't', ';', 's', 'c', 'r', 'i', 'p', 't', '&', 'g', 't', ';']

theorem safe_no_script {o : List Char} (ho : SafeOut o) :
    ¬ scriptTok <:+: o := by
  induction ho with
  | nil =>
    intro h
    simp [scriptTok] at h
  | chr hc _ ih =>
    intro h
    rcases List.infix_cons_iff.mp h with hpre | hinf
    · rw [show scriptTok = '<' :: ['s', 'c', 'r', 'i', 'p', 't', '>'] from rfl] at hpre
      obtain ⟨heq, _⟩ := List.cons_prefix_cons.mp hpre
      exact hc heq.symm
    · exact ih hinf
  | tagOpen _ ih =>
    intro h
    rcases infix_append_cases _ h with ⟨k, hk, hp⟩ | ht
    · have hk8 : k < 8 := by simpa [strongOpen] using hk
      interval_cases k <;>
        simp [strongOpen, scriptTok, List.cons_prefix_cons] at hp
    · exact ih ht
  | tagClose _ ih =>
    intro h
    rcases infix_append_cases _ h with ⟨k, hk, hp⟩ | ht
    · have hk9 : k < 9 := by simpa [strongClose] using hk
      interval_cases k <;>
        simp [strongClose, scriptTok, List.cons_prefix_cons] at hp
    · exact ih ht

theorem rim_infix_mono {tok : List Char} (hne : tok ≠ []) (hstar : '*' ∉ tok) :
    ∀ {l : List Char}, tok <:+: l → tok <:+: renderInlineMarkdown l := by
  intro l
  induction l using renderInlineMarkdown.induct with
  | case1 rest content rest' h ih =>
    intro hin
    have hspec := rimClose_spec [] rest content rest' h
    simp at hspec
    rw [rim_close_some h, List.append_assoc, List.append_assoc]
    rcases infix_split_delim hne hstar [] (by simpa using hin) with h0 | h1
    · simp at h0
      exact absurd h0 hne
    rcases infix_split_delim hne hstar [] (by simpa using h1) with h0 | h2
    · simp at h0
      exact absurd h0 hne
    rw [← hspec] at h2
    have h2b : tok <:+: content ++ '*' :: ('*' :: rest') := by simpa using h2
    rcases infix_split_delim hne hstar content h2b with hc | hrest
    · exact hc.trans ⟨strongOpen, strongClose ++ renderInlineMarkdown rest', rfl⟩
    · rcases infix_split_delim hne hstar [] (by simpa using hrest) with h0 | h3
      · simp at h0
        exact absurd h0 hne
      · refine (ih h3).trans ?_
        exact ⟨strongOpen ++ content ++ strongClose, [], by simp⟩
  | case2 rest h ih =>
    intro hin
    rw [rim_close_none h]
    rcases infix_split_delim hne hstar [] (by simpa using hin) with h0 | h1
    · simp at h0
      exact absurd h0 hne
    · exact List.infix_cons (ih h1)
  | case3 c rest hpat ih =>
    intro hin
    rcases List.infix_cons_iff.mp hin with hpre | hinf
    · obtain ⟨r, hr⟩ := hpre
      rw [← hr, rim_append_nostar (fun x hx heq => hstar (heq ▸ hx)) r]
      exact ⟨[], renderInlineMarkdown r, by simp⟩
    · rw [rim_cons_nopat hpat]
      exact List.infix_cons (ih hinf)
  | case4 =>
    intro hin
    simp at hin
    exact absurd hin hne


theorem escChar_ne_lt (x c : Char) (hc : c ∈ escChar x) : c ≠ '<' := by
  unfold escChar at hc
  split_ifs at hc with h1 h2 h3 h4 h5
  · simp [ampEnt] at hc
    rcases hc with rfl | rfl | rfl | rfl | rfl <;> decide
  · simp [ltEnt] at hc
    rcases hc with rfl | rfl | rfl | rfl <;> decide
  · simp [gtEnt] at hc
    rcases hc with rfl | rfl | rfl | rfl <;> decide
  · simp [quotEnt] at hc
    rcases hc with rfl | rfl | rfl | rfl | rfl | rfl <;> decide
  · simp [aposEnt] at hc
    rcases hc with rfl | rfl | rfl | rfl | rfl | rfl <;> decide
  · simp at hc
    subst hc
    exact h2

theorem escape_nolt (s : List Char) : ∀ c ∈ escapeHTML s, c ≠ '<' := by
  intro c hc
  rw [escapeHTML_eq_flatMap] at hc
  rw [List.mem_flatMap] at hc
  obtain ⟨x, _, hx⟩ := hc
  exact escChar_ne_lt x c hx

theorem escape_maps_script_token {s : List Char} (h : scriptTok <:+: s) :
    scriptEsc <:+: escapeHTML s := by
  obtain ⟨pre, post, heq⟩ := h
  rw [← heq, escapeHTML_append, escapeHTML_append]
  refine ⟨escapeHTML pre, escapeHTML post, ?_⟩
  rw [show escapeHTML scriptTok = scriptEsc by decide]


/-! ### Dashboard list (main.js 358-401) and delete action (main.js 413-430) -/

/-- One element of `appState.dashboardItems`; optional fields are absent
(`none`) when the server omitted them. -/
structure DashItem where
  id : Int
  filename : Option String := none
  created_at : Option String := none
  risk_level : Option String := none
deriving DecidableEq, Repr

/-- `.toLowerCase()`, modelled character-wise. -/
def jsToLower (s : String) : String := String.mk (s.data.map Char.toLower)

/-- `s.endsWith(suff)`. -/
def jsEndsWith (s suff : String) : Bool := decide (List.IsSuffix suff.data s.data)

/-- `hay.includes(sub)`: contiguous-substring test. -/
def jsIncludes (hay sub : String) : Bool :=
  decide (sub.toList <:+: hay.toList)

/-- The four sort orders of `renderDashboardList` (main.js 363-368), as the
"comparator ≤ 0" relation of each branch; `localeCompare` is modelled as the
lexicographic string order, and `x || ''` as `Option.getD x ""`.  Every
`sort` value other than the three named ones falls back to the default
descending-by-date comparator (main.js 367). -/
def dashLe (sort : String) (a b : DashItem) : Prop :=
  if sort = "date_asc" then (a.created_at.getD "") ≤ (b.created_at.getD "")
  else if sort = "alpha_asc" then (a.filename.getD "") ≤ (b.filename.getD "")
  else if sort = "alpha_desc" then (b.filename.getD "") ≤ (a.filename.getD "")
  else (b.created_at.getD "") ≤ (a.created_at.getD "")

instance (sort : String) : DecidableRel (dashLe sort) := fun a b => by
  unfold dashLe
  infer_instance

/-- The search filter of `renderDashboardList` (main.js 359-362):
lower-cased query, applied as a case-insensitive substring test on the
filename only when the query is non-empty. -/
def dashFilter (items : List DashItem) (query : String) : List DashItem :=
  let q := jsToLower query
  if q = "" then items
  else items.filter fun i => jsIncludes (jsToLower (i.filename.getD "")) q

/-- `renderDashboardList` (main.js 358-368): copy, filter by the query, then
stably sort with the selected comparator (JavaScript `Array.prototype.sort`
is stable, modelled by insertion sort). -/
def renderDashboardList (items : List DashItem) (query sort : String) :
    List DashItem :=
  List.insertionSort (dashLe sort) (dashFilter items query)

instance (sort : String) : IsTotal DashItem (dashLe sort) :=
  ⟨by
    intro a b
    unfold dashLe
    split_ifs <;> exact le_total _ _⟩

instance (sort : String) : IsTrans DashItem (dashLe sort) :=
  ⟨by
    intro a b c
    unfold dashLe
    split_ifs <;>
      first
        | exact fun h1 h2 => le_trans h1 h2
        | exact fun h1 h2 => le_trans h2 h1⟩

/-- A notification banner (message and severity). -/
structure Notif where
  message : String
  kind : String
deriving DecidableEq, Repr

/-- The confirmed-delete handler (main.js 419-428): the item is filtered out
of `appState.dashboardItems` and a success notification shown only when the
server DELETE call returned without throwing; when it throws, the list is
left untouched and an error notification is shown. -/
def deleteAnalysisAction (items : List DashItem) (id : Int)
    (serverResult : Except String Unit) : List DashItem × Notif :=
  match serverResult with
  | Except.ok _ =>
    (items.filter fun x => decide (x.id ≠ id),
      { message := "Analysis deleted successfully.", kind := "success" })
  | Except.error _ =>
    (items, { message := "Failed to delete analysis.", kind := "error" })

/-! ### `apiCall` (main.js 192-214) -/

/-- A request body: multipart form data or a plain object. -/
inductive ReqBody where
  | formData (parts : List (String × String))
  | jsonObj (fields : List (String × String))
deriving DecidableEq, Repr

/-- `JSON.stringify` for a flat string-valued object. -/
def jsonStringify (fields : List (String × String)) : String :=
  "\x7b" ++
    String.intercalate ","
      (fields.map fun kv => "\"" ++ kv.1 ++ "\":\"" ++ kv.2 ++ "\"") ++
    "\x7d"

/-- The body actually handed to `fetch`. -/
inductive SentBody where
  | form (parts : List (String × String))
  | text (s : String)
deriving DecidableEq, Repr

/-- The `options` argument of `apiCall`. -/
structure ApiOptions where
  method : Option String := none
  headers : List (String × String) := []
  body : Option ReqBody := none

/-- Setting a key on a JavaScript object of headers: the new binding
replaces any previous binding of the same key. -/
def setHeader (k v : String) (hs : List (String × String)) :
    List (String × String) :=
  (k, v) :: hs.filter fun p => !(p.1 == k)

/-- JavaScript truthiness of `appState.token` (absent or empty is falsy). -/
def tokenTruthy : Option String → Bool
  | none => false
  | some s => !(s == "")

/-- The request `apiCall` builds (main.js 193-204). -/
structure BuiltRequest where
  headers : List (String × String)
  body : Option SentBody
  method : Option String
deriving DecidableEq, Repr

/-- Header and body preparation of `apiCall` (main.js 193-203): attach the
bearer token when the token is truthy; unless the body is form data, set the
JSON content type and stringify the body when one is present. -/
def buildRequest (token : Option String) (opts : ApiOptions) : BuiltRequest :=
  let headers1 :=
    if tokenTruthy token then
      setHeader "Authorization" ("Bearer " ++ token.getD "") opts.headers
    else opts.headers
  match opts.body with
  | some (ReqBody.formData parts) =>
    { headers := headers1, body := some (SentBody.form parts),
      method := opts.method }
  | some (ReqBody.jsonObj fields) =>
    { headers := setHeader "Content-Type" "application/json" headers1,
      body := some (SentBody.text (jsonStringify fields)),
      method := opts.method }
  | none =>
    { headers := setHeader "Content-Type" "application/json" headers1,
      body := none, method := opts.method }

/-- A parsed JSON value (flat, as far as the client inspects it). -/
inductive SJson where
  | obj (fields : List (String × String))
  | arr (items : List String)
  | str (s : String)
deriving DecidableEq, Repr

/-- `a || b` on an optional string, with JavaScript truthiness. -/
def jsOr (a : Option String) (b : String) : String :=
  match a with
  | none => b
  | some s => if s = "" then b else s

/-- The response as `apiCall` inspects it: HTTP success flag, the `detail`
field of the error body, the content type, and the parsed JSON body. -/
structure ApiResponse where
  ok : Bool
  detail : Option String
  contentType : Option String
  jsonBody : SJson
deriving DecidableEq, Repr

/-- `contentType && contentType.includes("application/json")`. -/
def contentTypeIncludesJson : Option String → Bool
  | none => false
  | some s => jsIncludes s "application/json"

/-- Response handling of `apiCall` (main.js 205-213): throw
`error.detail || 'An unknown error occurred'` on a non-ok status — the
fallback is used when `detail` is absent or the empty string (JavaScript
truthiness); return the parsed JSON body on JSON responses and an empty
object otherwise. -/
def apiCallResult (resp : ApiResponse) : Except String SJson :=
  if resp.ok = false then
    Except.error (jsOr resp.detail "An unknown error occurred")
  else if contentTypeIncludesJson resp.contentType then
    Except.ok resp.jsonBody
  else Except.ok (SJson.obj [])

theorem lookup_setHeader_self (k v : String) (hs : List (String × String)) :
    List.lookup k (setHeader k v hs) = some v := by
  simp [setHeader, List.lookup]

theorem lookup_filter_ne {k k2 : String} (hne : k ≠ k2)
    (hs : List (String × String)) :
    List.lookup k (hs.filter fun p => !(p.1 == k2)) = List.lookup k hs := by
  induction hs with
  | nil => rfl
  | cons p t ih =>
    obtain ⟨a, b⟩ := p
    by_cases hp : a = k2
    · subst hp
      have h1 : (k == a) = false := beq_eq_false_iff_ne.mpr hne
      simp [List.filter, List.lookup, h1, ih]
    · have h2 : (!(a == k2)) = true := by simp [hp]
      simp [List.filter, List.lookup, h2, ih]

theorem lookup_setHeader_ne {k k2 : String} (hne : k ≠ k2) (v : String)
    (hs : List (String × String)) :
    List.lookup k (setHeader k2 v hs) = List.lookup k hs := by
  have hk : (k == k2) = false := by simp [hne]
  simp [setHeader, List.lookup, hk, lookup_filter_ne hne]

/-! ### `formatDate` (main.js 1363-1375) -/

/-- `formatDate` (main.js 1363-1375), parameterised by the environment's
date parser (`new Date`, `none` when the result is `Invalid Date`) and
locale formatter (`toLocaleDateString`): a falsy or unparseable date yields
the kind-specific fallback string, a parseable one the localized date. -/
def formatDate (dateParse : String → Option Nat) (toLocale : Nat → String)
    (iso : Option String) (kind : String) : String :=
  let fallback :=
    if kind = "payment_due" then "Due date not specified"
    else if kind = "action_required" then "Deadline not specified"
    else "Date not specified"
  match iso with
  | none => fallback
  | some s =>
    if s = "" then fallback
    else
      match dateParse s with
      | none => fallback
      | some d => toLocale d

/-! ### `handleQuery` (main.js 945-979) -/

/-- One turn of `appState.conversationHistory`. -/
structure ChatMsg where
  role : String
  content : String
deriving DecidableEq, Repr

/-- The parsed `/query` response. -/
structure QueryAnswer where
  answer : String
  citation : String
deriving DecidableEq, Repr

/-- A chat bubble in the conversation log. -/
inductive Bubble where
  | user (q : String)
  | thinking
  | answer (a : QueryAnswer)
  | failure (msg : String)
deriving DecidableEq, Repr

/-- `handleQuery` (main.js 945-979): with a log present, a user bubble is
appended first unless the popup log is the target (the popup already added
it), then a "Thinking..." placeholder; on success the placeholder is
replaced with the rendered answer and the user (unless the popup is open)
and assistant turns are pushed to the history; on failure the placeholder is
replaced with an inline error bubble and the history is left untouched. -/
def handleQuery (popupOpen logPresent : Bool) (question : String)
    (history : List ChatMsg) (log : List Bubble)
    (apiResult : Except String QueryAnswer) : List ChatMsg × List Bubble :=
  let logBase :=
    if logPresent then
      (if popupOpen then log else log ++ [Bubble.user question])
    else log
  match apiResult with
  | Except.ok data =>
    (history ++ (if popupOpen then [] else [{ role := "user", content := question }]) ++
        [{ role := "assistant", content := data.answer }],
      if logPresent then logBase ++ [Bubble.answer data] else logBase)
  | Except.error msg =>
    (history, if logPresent then logBase ++ [Bubble.failure msg] else logBase)

/-! ### View-state switcher and results renderer (main.js 284-318, 606-765) -/

/-- The named view containers of the `containers` cache (main.js 163-172). -/
inductive CName where
  | login | register | dashboard | upload | loading | error | results | landing
deriving DecidableEq, Repr

/-- `classList.add c`: appended only when absent (DOMTokenList has no
duplicates). -/
def addClass (c : String) (cs : List String) : List String :=
  if c ∈ cs then cs else cs ++ [c]

/-- `classList.remove c`. -/
def removeClass (c : String) (cs : List String) : List String :=
  cs.filter fun x => !(x == c)

/-- `classList.add(c₁, c₂, ...)`. -/
def addClasses (cs : List String) (l : List String) : List String :=
  cs.foldl (fun acc c => addClass c acc) l

/-- `classList.remove(c₁, c₂, ...)`. -/
def removeClasses (cs : List String) (l : List String) : List String :=
  cs.foldl (fun acc c => removeClass c acc) l

/-- A normalized bounding box of an image-page highlight (main.js 829-836). -/
structure Box where
  x : Rat
  y : Rat
  w : Rat
  h : Rat
deriving DecidableEq, Repr

/-- One element of `risk_highlights` / `matches` (main.js 815-829). -/
structure PageMatch where
  page_index : Option Nat := none
  boxes : Option (List Box) := none
  char_start : Option Int := none
  char_end : Option Int := none
deriving DecidableEq, Repr

/-- One `key_info` entry of an Analysis. -/
structure KeyInfoItem where
  key : Option String := none
  value : Option String := none
  is_negotiable : Bool := false
deriving DecidableEq, Repr

/-- One `identified_actions` entry of an Analysis. -/
structure ActionItem where
  text : Option String := none
  is_negotiable : Bool := false
deriving DecidableEq, Repr

/-- The analysis payload as `renderResults` consumes it (main.js 579-590);
optional fields are `none` when absent from the server response. -/
structure Analysis where
  id : Option Int := none
  filename : Option String := none
  assessment : String := ""
  key_info : Option (List KeyInfoItem) := none
  identified_actions : Option (List ActionItem) := none
  extracted_text : Option (List String) := none
  page_images : Option (List String) := none
  risk_highlights : Option (List PageMatch) := none
deriving DecidableEq, Repr

/-- One rendered key-info row (main.js 614-618). -/
structure KeyRow where
  label : String
  value : String
  showRewrite : Bool
deriving DecidableEq, Repr

/-- One rendered action card (main.js 623-650): text, the conditional
rewrite affordance, and the local ELI5/expand toggle state, all fresh after
a render. -/
structure ActionRow where
  text : String
  showRewrite : Bool
  eli5Loaded : Bool
  eli5Visible : Bool
  expanded : Bool
deriving DecidableEq, Repr

/-- The contents of one page of the document viewer: a plain text node or
the highlight markup assigned to `innerHTML` (main.js 741-742, 871). -/
inductive PageContent where
  | plain (s : String)
  | marked (html : List Char)
deriving DecidableEq, Repr

/-- One page of the document viewer: a rasterized page image with its
overlay highlight boxes, or an extracted-text page (main.js 717-745). -/
inductive PageView where
  | image (src : String) (overlayBoxes : List Box)
  | text (content : PageContent)
deriving DecidableEq, Repr

/-- The document-viewer pane (main.js 654-752): whether the exact-view
toggle is shown, its state, whether the PDF iframe was lazily loaded, and
the rendered pages. -/
structure ViewerState where
  showToggle : Bool := false
  exactOn : Bool := false
  exactLoaded : Bool := false
  pages : List PageView := []
deriving DecidableEq, Repr, Inhabited

/-- The client state the claims observe: the `appState` fields, the class
lists of the named containers and auxiliary elements, the persisted local
storage keys (`chimeraPage`, `chimeraAnalysisId`), and the results pane. -/
structure FullState where
  currentAnalysis : Option Analysis := none
  conversationHistory : List ChatMsg := []
  loginClasses : List String := []
  registerClasses : List String := []
  dashboardClasses : List String := []
  uploadClasses : List String := []
  loadingClasses : List String := []
  errorClasses : List String := []
  resultsClasses : List String := []
  landingClasses : List String := []
  coFabClasses : List String := []
  navToUploadClasses : List String := []
  navToDashboardClasses : List String := []
  pageKey : Option String := none
  analysisKey : Option String := none
  assessmentText : String := ""
  keyInfoRows : List KeyRow := []
  actionRows : List ActionRow := []
  viewerFilename : String := ""
  viewer : ViewerState := {}
  tabAnalysisClasses : List String := []
  tabTimelineClasses : List String := []
  panelAnalysisClasses : List String := []
  panelTimelineClasses : List String := []
deriving DecidableEq, Repr

/-- The class list of a named container. -/
def containerClasses (st : FullState) : CName → List String
  | CName.login => st.loginClasses
  | CName.register => st.registerClasses
  | CName.dashboard => st.dashboardClasses
  | CName.upload => st.uploadClasses
  | CName.loading => st.loadingClasses
  | CName.error => st.errorClasses
  | CName.results => st.resultsClasses
  | CName.landing => st.landingClasses

/-- The redirect at the top of `showState` (main.js 286): landing, login and
register all route to the dashboard. -/
def remapState : CName → CName
  | CName.landing => CName.dashboard
  | CName.login => CName.dashboard
  | CName.register => CName.dashboard
  | s => s

/-- The string name persisted under the `chimeraPage` key. -/
def stateName : CName → String
  | CName.login => "login"
  | CName.register => "register"
  | CName.dashboard => "dashboard"
  | CName.upload => "upload"
  | CName.loading => "loading"
  | CName.error => "error"
  | CName.results => "results"
  | CName.landing => "landing"

/-- Remove the hidden class from one named container (main.js 288). -/
def showContainer (c : CName) (st : FullState) : FullState :=
  match c with
  | CName.login => { st with loginClasses := removeClass "hidden" st.loginClasses }
  | CName.register => { st with registerClasses := removeClass "hidden" st.registerClasses }
  | CName.dashboard => { st with dashboardClasses := removeClass "hidden" st.dashboardClasses }
  | CName.upload => { st with uploadClasses := removeClass "hidden" st.uploadClasses }
  | CName.loading => { st with loadingClasses := removeClass "hidden" st.loadingClasses }
  | CName.error => { st with errorClasses := removeClass "hidden" st.errorClasses }
  | CName.results => { st with resultsClasses := removeClass "hidden" st.resultsClasses }
  | CName.landing => { st with landingClasses := removeClass "hidden" st.landingClasses }

/-- `showState` (main.js 284-318): remap the state, hide every container,
show the target, toggle the Clause Oracle FAB and the landing container,
update the nav links, and persist the shown state name under the page
key. -/
def showState (s0 : CName) (st : FullState) : FullState :=
  let s := remapState s0
  let st1 := { st with
    loginClasses := addClass "hidden" st.loginClasses,
    registerClasses := addClass "hidden" st.registerClasses,
    dashboardClasses := addClass "hidden" st.dashboardClasses,
    uploadClasses := addClass "hidden" st.uploadClasses,
    loadingClasses := addClass "hidden" st.loadingClasses,
    errorClasses := addClass "hidden" st.errorClasses,
    resultsClasses := addClass "hidden" st.resultsClasses,
    landingClasses := addClass "hidden" st.landingClasses }
  let st2 := showContainer s st1
  let st3 := { st2 with coFabClasses :=
    (if s = CName.results then removeClass "hidden" st2.coFabClasses
     else addClass "hidden" st2.coFabClasses) }
  let st4 := { st3 with landingClasses :=
    (if s = CName.landing then removeClass "hidden" st3.landingClasses
     else addClass "hidden" st3.landingClasses) }
  let st5 := { st4 with
    navToUploadClasses :=
      (let base := removeClass "hidden" st4.navToUploadClasses
       if s = CName.upload then addClass "hidden" base else base),
    navToDashboardClasses :=
      (let base := removeClass "hidden" st4.navToDashboardClasses
       if s = CName.dashboard then addClass "hidden" base else base) }
  { st5 with pageKey := some (stateName s) }

/-- `(data.filename || '').toLowerCase().endsWith('.pdf')` (main.js 656). -/
def isPdfName (filename : Option String) : Bool :=
  jsEndsWith (jsToLower (filename.getD "")) ".pdf"

/-- The matches grouped onto page `i` (main.js 814-819): `byPage` keyed by
`m.page_index || 0`. -/
def matchesForPage (hl : List PageMatch) (i : Nat) : List PageMatch :=
  hl.filter fun m => m.page_index.getD 0 == i

/-- The char-offset view of a match used by the text path. -/
def toHMatch (m : PageMatch) : HMatch :=
  { char_start := m.char_start, char_end := m.char_end }

/-- `pageText || 'No text.'` (main.js 742). -/
def pageTextEff (s : String) : String :=
  if s = "" then "No text." else s

/-- An extracted-text page after the render and the highlight pass
(main.js 738-745, 843-872): when highlights are being applied and the page
has a non-empty merged range list, its markup is rebuilt; otherwise it stays
a plain text node. -/
def renderTextPage (hl : List PageMatch) (applyHl : Bool) (i : Nat)
    (pageText : String) : PageView :=
  let txt := pageTextEff pageText
  if applyHl then
    let ranges := computeMerged ((matchesForPage hl i).map toHMatch) txt.length
    if ranges.isEmpty then PageView.text (PageContent.plain txt)
    else PageView.text (PageContent.marked (rebuildHtml txt.toList ranges))
  else PageView.text (PageContent.plain txt)

/-- An image page after the render and the highlight pass (main.js 719-736,
826-839): overlay boxes collected from the page's matches. -/
def renderImagePage (hl : List PageMatch) (applyHl : Bool) (i : Nat)
    (src : String) : PageView :=
  PageView.image src
    (if applyHl then (matchesForPage hl i).flatMap fun m => m.boxes.getD []
     else [])

/-- The document viewer `renderResults` builds (main.js 654-752) with the
immediate highlight pass (main.js 747-752): page images when present, else
extracted text pages; the exact-view toggle exists only for PDFs without
page images and starts off (not loaded). -/
def buildViewer (data : Analysis) : ViewerState :=
  let hasPageImages := (data.page_images.getD []).length > 0
  let applyHl := data.risk_highlights.isSome &&
    (data.risk_highlights.getD []).length > 0
  let hl := data.risk_highlights.getD []
  { showToggle := isPdfName data.filename && !hasPageImages,
    exactOn := false,
    exactLoaded := false,
    pages :=
      if hasPageImages then
        (data.page_images.getD []).mapIdx fun i src => renderImagePage hl applyHl i src
      else if (data.extracted_text.getD []).length > 0 then
        (data.extracted_text.getD []).mapIdx fun i s => renderTextPage hl applyHl i s
      else [] }

/-- The `chimeraAnalysisId` persistence of `renderResults` (main.js 609):
stored only when `data.id` is truthy (present and non-zero), otherwise the
previous value is kept. -/
def persistId (id : Option Int) (prev : Option String) : Option String :=
  match id with
  | some i => if i = 0 then prev else some (toString i)
  | none => prev

/-- The classes marking the active tab (main.js 762). -/
def tabActiveClasses : List String :=
  ["border-b-2", "border-primary-600", "text-primary-700", "font-semibold"]

/-- `renderResults` (main.js 606-765): store the analysis and clear the chat
history, persist the analysis id when truthy, repopulate the assessment
text, key-info rows, action cards, viewer filename and document viewer from
scratch, show the results state, and reset the tabs to the Analysis view. -/
def renderResults (data : Analysis) (selectedFileName : Option String)
    (st : FullState) : FullState :=
  let st1 := { st with
    currentAnalysis := some data,
    conversationHistory := [],
    analysisKey := persistId data.id st.analysisKey,
    assessmentText := data.assessment,
    keyInfoRows :=
      (data.key_info.getD []).map fun item =>
        { label := item.key.getD "", value := item.value.getD "",
          showRewrite := item.is_negotiable },
    actionRows :=
      (data.identified_actions.getD []).map fun item =>
        { text := item.text.getD "", showRewrite := item.is_negotiable,
          eli5Loaded := false, eli5Visible := false, expanded := false },
    viewerFilename := jsOr data.filename (jsOr selectedFileName "Document"),
    viewer := buildViewer data }
  let st2 := showState CName.results st1
  { st2 with
    panelAnalysisClasses := removeClass "hidden" st2.panelAnalysisClasses,
    panelTimelineClasses := addClass "hidden" st2.panelTimelineClasses,
    tabAnalysisClasses := addClasses tabActiveClasses st2.tabAnalysisClasses,
    tabTimelineClasses := removeClasses tabActiveClasses st2.tabTimelineClasses }

/-! ### Class-list algebra -/

theorem mem_addClass_self (c : String) (l : List String) : c ∈ addClass c l := by
  unfold addClass
  split_ifs with h
  · exact h
  · simp

theorem mem_addClass_of_mem {x : String} (c : String) {l : List String}
    (h : x ∈ l) : x ∈ addClass c l := by
  unfold addClass
  split_ifs
  · exact h
  · exact List.mem_append_left _ h

theorem addClass_eq_of_mem {c : String} {l : List String} (h : c ∈ l) :
    addClass c l = l := if_pos h

theorem addClass_idem (c : String) (l : List String) :
    addClass c (addClass c l) = addClass c l :=
  addClass_eq_of_mem (mem_addClass_self c l)

theorem not_mem_removeClass (c : String) (l : List String) :
    c ∉ removeClass c l := by
  intro h
  rw [removeClass, List.mem_filter] at h
  simp at h

theorem mem_of_mem_removeClass {x c : String} {l : List String}
    (h : x ∈ removeClass c l) : x ∈ l :=
  List.mem_of_mem_filter h

theorem removeClass_eq_of_not_mem {c : String} {l : List String} (h : c ∉ l) :
    removeClass c l = l := by
  rw [removeClass]
  apply List.filter_eq_self.mpr
  intro x hx
  simp
  intro he
  exact absurd (he ▸ hx) h

theorem removeClass_idem (c : String) (l : List String) :
    removeClass c (removeClass c l) = removeClass c l :=
  removeClass_eq_of_not_mem (not_mem_removeClass c l)

theorem removeClass_addClass (c : String) (l : List String) :
    removeClass c (addClass c l) = removeClass c l := by
  unfold addClass
  split_ifs with h
  · rfl
  · rw [removeClass, removeClass, List.filter_append]
    simp

theorem mem_addClasses_of_mem {x : String} (cs : List String) {l : List String}
    (h : x ∈ l) : x ∈ addClasses cs l := by
  induction cs generalizing l with
  | nil => exact h
  | cons c cs ih => exact ih (mem_addClass_of_mem c h)

theorem mem_addClasses_self {c : String} {cs : List String} (l : List String)
    (h : c ∈ cs) : c ∈ addClasses cs l := by
  induction cs generalizing l with
  | nil => cases h
  | cons c2 cs ih =>
    rcases List.mem_cons.mp h with rfl | h2
    · exact mem_addClasses_of_mem cs (mem_addClass_self c l)
    · exact ih _ h2

theorem addClasses_eq_of_all_mem {cs l : List String} (h : ∀ c ∈ cs, c ∈ l) :
    addClasses cs l = l := by
  induction cs with
  | nil => rfl
  | cons c cs ih =>
    have hc : addClass c l = l := addClass_eq_of_mem (h c (List.mem_cons_self _ _))
    show addClasses cs (addClass c l) = l
    rw [hc]
    exact ih fun x hx => h x (List.mem_cons_of_mem _ hx)

theorem addClasses_idem (cs l : List String) :
    addClasses cs (addClasses cs l) = addClasses cs l :=
  addClasses_eq_of_all_mem fun c hc => mem_addClasses_self _ hc

theorem not_mem_removeClass_of_not_mem {x c : String} {l : List String}
    (h : x ∉ l) : x ∉ removeClass c l :=
  fun hmem => h (mem_of_mem_removeClass hmem)

theorem not_mem_removeClasses_of_not_mem {x : String} {cs : List String}
    {l : List String} (h : x ∉ l) : x ∉ removeClasses cs l := by
  induction cs generalizing l with
  | nil => exact h
  | cons c cs ih => exact ih (not_mem_removeClass_of_not_mem h)

theorem not_mem_removeClasses {c : String} {cs : List String} (l : List String)
    (h : c ∈ cs) : c ∉ removeClasses cs l := by
  induction cs generalizing l with
  | nil => cases h
  | cons c2 cs ih =>
    rcases List.mem_cons.mp h with rfl | h2
    · show c ∉ removeClasses cs (removeClass c l)
      exact not_mem_removeClasses_of_not_mem (not_mem_removeClass c l)
    · exact ih _ h2

theorem removeClasses_eq_of_all_not_mem {cs l : List String}
    (h : ∀ c ∈ cs, c ∉ l) : removeClasses cs l = l := by
  induction cs with
  | nil => rfl
  | cons c cs ih =>
    have hc : removeClass c l = l :=
      removeClass_eq_of_not_mem (h c (List.mem_cons_self _ _))
    show removeClasses cs (removeClass c l) = l
    rw [hc]
    exact ih fun x hx => h x (List.mem_cons_of_mem _ hx)

theorem removeClasses_idem (cs l : List String) :
    removeClasses cs (removeClasses cs l) = removeClasses cs l :=
  removeClasses_eq_of_all_not_mem fun c hc => not_mem_removeClasses _ hc

theorem persistId_idem (id : Option Int) (x : Option String) :
    persistId id (persistId id x) = persistId id x := by
  unfold persistId
  cases id with
  | none => rfl
  | some i =>
    by_cases h : i = 0 <;> simp [h]

/-- C2: each of the four dashboard sort orders produces a permutation of the
filtered item list, ordered by the selected comparator, and stable: two
items of the filtered list that compare equal on the sort key keep their
relative order.  Any other value of `sort` uses the default
descending-by-date comparator, so the statement is universal in `sort`. -/
theorem C2_dashboard_sort_correct (items : List DashItem) (query sort : String) :
    List.Perm (renderDashboardList items query sort) (dashFilter items query)
    ∧ (renderDashboardList items query sort).Sorted (dashLe sort)
    ∧ ∀ a b : DashItem, List.Sublist [a, b] (dashFilter items query) →
        dashLe sort a b → dashLe sort b a →
        List.Sublist [a, b] (renderDashboardList items query sort) := by
  refine ⟨List.perm_insertionSort _ _, List.sorted_insertionSort _ _, ?_⟩
  intro a b hsub h1 _
  exact List.pair_sublist_insertionSort h1 hsub

/-- Two dashboard items with the same creation date, to exercise the
stability statement. -/
def dashDemo1 : DashItem := { id := 1, created_at := some "2024-01-01T00:00:00" }

def dashDemo2 : DashItem := { id := 2, created_at := some "2024-01-01T00:00:00" }

/-- Witness for C2: on two items tied on the date key, ascending date sort
keeps their insertion order. -/
theorem C2_dashboard_sort_correct_witness :
    List.Sublist [dashDemo1, dashDemo2]
      (renderDashboardList [dashDemo1, dashDemo2] "" "date_asc") :=
  (C2_dashboard_sort_correct [dashDemo1, dashDemo2] "" "date_asc").2.2
    dashDemo1 dashDemo2 (by decide)
    (by simp [dashLe, dashDemo1, dashDemo2])
    (by simp [dashLe, dashDemo1, dashDemo2])

/-- C3: `apiCall` attaches the bearer Authorization header exactly when the
token in app state is truthy (assuming the caller did not pass its own
Authorization header — no call site does); serializes a plain object body to
JSON and sets the JSON content type unless the body is multipart form data,
which is passed through untouched; fails whenever the HTTP status is not
success, with the server-provided `detail` message when it is truthy
(non-empty) and with the fixed fallback message when `detail` is absent or
empty; and on success yields the parsed JSON body, or an empty object when
the content type is not JSON. -/
theorem C3_apiCall_contract (token : Option String) (opts : ApiOptions)
    (resp : ApiResponse) :
    (List.lookup "Authorization" opts.headers = none →
      (List.lookup "Authorization" (buildRequest token opts).headers =
          some ("Bearer " ++ token.getD "") ↔ tokenTruthy token = true))
    ∧ (∀ fields, opts.body = some (ReqBody.jsonObj fields) →
        (buildRequest token opts).body = some (SentBody.text (jsonStringify fields))
        ∧ List.lookup "Content-Type" (buildRequest token opts).headers =
            some "application/json")
    ∧ (∀ parts, opts.body = some (ReqBody.formData parts) →
        (buildRequest token opts).body = some (SentBody.form parts))
    ∧ (resp.ok = false → ∀ d, resp.detail = some d → d ≠ "" →
        apiCallResult resp = Except.error d)
    ∧ (resp.ok = false → (resp.detail = none ∨ resp.detail = some "") →
        apiCallResult resp = Except.error "An unknown error occurred")
    ∧ (resp.ok = true → contentTypeIncludesJson resp.contentType = true →
        apiCallResult resp = Except.ok resp.jsonBody)
    ∧ (resp.ok = true → contentTypeIncludesJson resp.contentType = false →
        apiCallResult resp = Except.ok (SJson.obj [])) := by
  have hAuthNeCT : ("Authorization" : String) ≠ "Content-Type" := by decide
  refine ⟨?_, ?_, ?_, ?_, ?_, ?_, ?_⟩
  · intro hnone
    unfold buildRequest
    by_cases ht : tokenTruthy token = true
    · rw [if_pos ht]
      cases hb : opts.body with
      | none =>
        rw [lookup_setHeader_ne hAuthNeCT, lookup_setHeader_self]
        simp [ht]
      | some b =>
        cases b with
        | formData parts =>
          rw [lookup_setHeader_self]
          simp [ht]
        | jsonObj fields =>
          rw [lookup_setHeader_ne hAuthNeCT, lookup_setHeader_self]
          simp [ht]
    · rw [if_neg ht]
      cases hb : opts.body with
      | none =>
        rw [lookup_setHeader_ne hAuthNeCT, hnone]
        simp [ht]
      | some b =>
        cases b with
        | formData parts =>
          rw [hnone]
          simp [ht]
        | jsonObj fields =>
          rw [lookup_setHeader_ne hAuthNeCT, hnone]
          simp [ht]
  · intro fields hb
    unfold buildRequest
    rw [hb]
    exact ⟨rfl, lookup_setHeader_self _ _ _⟩
  · intro parts hb
    unfold buildRequest
    rw [hb]
  · intro hok d hd hne
    unfold apiCallResult
    rw [hok, hd]
    simp [jsOr, hne]
  · rintro hok (hd | hd) <;>
      · unfold apiCallResult
        rw [hok, hd]
        simp [jsOr]
  · intro hok hct
    unfold apiCallResult
    rw [hok, hct]
    rfl
  · intro hok hct
    unfold apiCallResult
    rw [hok, hct]
    rfl

/-- Concrete options for the C3 witness. -/
def optsDemo : ApiOptions := { body := some (ReqBody.jsonObj [("a", "b")]) }

/-- Concrete failing response for the C3 witness. -/
def respDemo : ApiResponse :=
  { ok := false, detail := some "boom", contentType := none,
    jsonBody := SJson.obj [] }

/-- Witness for C3 at a concrete token, options and response. -/
theorem C3_apiCall_contract_witness :
    (List.lookup "Authorization" (buildRequest (some "tok") optsDemo).headers =
      some ("Bearer " ++ (some "tok").getD "") ↔ tokenTruthy (some "tok") = true) ∧
    apiCallResult respDemo = Except.error "boom" :=
  ⟨(C3_apiCall_contract (some "tok") optsDemo respDemo).1 rfl,
   (C3_apiCall_contract (some "tok") optsDemo respDemo).2.2.2.1 rfl "boom" rfl
     (by decide)⟩

/-- C6: the delete handler removes the item from the in-memory list only
after the server's DELETE succeeded: on failure the list is unchanged and an
error notification is shown; on success no item with the deleted id remains,
all other items are kept in order, and a success notification is shown. -/
theorem C6_delete_only_after_server (items : List DashItem) (id : Int) :
    (∀ e : String, (deleteAnalysisAction items id (Except.error e)).1 = items ∧
        (deleteAnalysisAction items id (Except.error e)).2 =
          { message := "Failed to delete analysis.", kind := "error" })
    ∧ (∀ x ∈ (deleteAnalysisAction items id (Except.ok ())).1, x.id ≠ id)
    ∧ List.Sublist (deleteAnalysisAction items id (Except.ok ())).1 items
    ∧ (∀ x ∈ items, x.id ≠ id → x ∈ (deleteAnalysisAction items id (Except.ok ())).1)
    ∧ (deleteAnalysisAction items id (Except.ok ())).2 =
        { message := "Analysis deleted successfully.", kind := "success" } := by
  refine ⟨fun e => ⟨rfl, rfl⟩, ?_, ?_, ?_, rfl⟩
  · intro x hx
    rw [show (deleteAnalysisAction items id (Except.ok ())).1 =
        items.filter (fun x => decide (x.id ≠ id)) from rfl] at hx
    rw [List.mem_filter] at hx
    simpa using hx.2
  · exact List.filter_sublist _
  · intro x hx hne
    rw [show (deleteAnalysisAction items id (Except.ok ())).1 =
        items.filter (fun x => decide (x.id ≠ id)) from rfl]
    rw [List.mem_filter]
    exact ⟨hx, by simpa using hne⟩

/-- Witness for C6 at a concrete list and failing / succeeding calls. -/
theorem C6_delete_only_after_server_witness :
    (deleteAnalysisAction [dashDemo1, dashDemo2] 1 (Except.error "down")).1 =
      [dashDemo1, dashDemo2] ∧
    dashDemo2 ∈ (deleteAnalysisAction [dashDemo1, dashDemo2] 1 (Except.ok ())).1 :=
  ⟨((C6_delete_only_after_server [dashDemo1, dashDemo2] 1).1 "down").1,
   (C6_delete_only_after_server [dashDemo1, dashDemo2] 1).2.2.2.1 dashDemo2
     (by decide) (by decide)⟩

/-- C7: for a timeline event whose date is absent or unparseable,
`formatDate` returns the kind-specific fallback string without throwing —
`Due date not specified` for `payment_due`, `Deadline not specified` for
`action_required`, `Date not specified` for any other kind — and for a
parseable date it returns the localized date string. -/
theorem C7_formatDate_fallbacks (dp : String → Option Nat) (tl : Nat → String) :
    (∀ iso : Option String,
      (iso = none ∨ iso = some "" ∨ (∃ s, iso = some s ∧ dp s = none)) →
        formatDate dp tl iso "payment_due" = "Due date not specified" ∧
        formatDate dp tl iso "action_required" = "Deadline not specified" ∧
        ∀ k : String, k ≠ "payment_due" → k ≠ "action_required" →
          formatDate dp tl iso k = "Date not specified")
    ∧ ∀ (s : String) (d : Nat) (k : String), s ≠ "" → dp s = some d →
        formatDate dp tl (some s) k = tl d := by
  constructor
  · rintro iso (rfl | rfl | ⟨s, rfl, hdp⟩)
    · exact ⟨rfl, rfl, fun k hk1 hk2 => by simp [formatDate, hk1, hk2]⟩
    · exact ⟨rfl, rfl, fun k hk1 hk2 => by simp [formatDate, hk1, hk2]⟩
    · refine ⟨?_, ?_, fun k hk1 hk2 => ?_⟩
      · by_cases hs : s = "" <;> simp [formatDate, hs, hdp]
      · by_cases hs : s = "" <;> simp [formatDate, hs, hdp]
      · by_cases hs : s = "" <;> simp [formatDate, hs, hdp, hk1, hk2]
  · intro s d k hs hdp
    simp [formatDate, hs, hdp]

/-- Witness for C7 at a concrete parser and inputs. -/
theorem C7_formatDate_fallbacks_witness :
    formatDate (fun _ => none) (fun _ => "loc") none "payment_due" =
      "Due date not specified" ∧
    formatDate (fun _ => some 7) (fun n => toString n) (some "2024-01-01") "key_date" =
      toString 7 :=
  ⟨((C7_formatDate_fallbacks (fun _ => none) (fun _ => "loc")).1 none
      (Or.inl rfl)).1,
   (C7_formatDate_fallbacks (fun _ => some 7) (fun n => toString n)).2
     "2024-01-01" 7 "key_date" (by decide) rfl⟩

/-- C10 (implicit): when the `/query` call fails, `handleQuery` leaves
`conversationHistory` exactly as it was (no assistant turn, and no user turn
either — the popup path adds the user turn before calling `handleQuery`);
the error surfaces only as an inline chat bubble replacing the "Thinking..."
placeholder in the log. -/
theorem C10_query_error_preserves_history (popupOpen logPresent : Bool)
    (question : String) (history : List ChatMsg) (log : List Bubble)
    (errMsg : String) :
    (handleQuery popupOpen logPresent question history log
        (Except.error errMsg)).1 = history
    ∧ (logPresent = true → popupOpen = false →
        (handleQuery popupOpen logPresent question history log
            (Except.error errMsg)).2 =
          log ++ [Bubble.user question, Bubble.failure errMsg])
    ∧ (logPresent = true → popupOpen = true →
        (handleQuery popupOpen logPresent question history log
            (Except.error errMsg)).2 = log ++ [Bubble.failure errMsg])
    ∧ (logPresent = false →
        (handleQuery popupOpen logPresent question history log
            (Except.error errMsg)).2 = log) := by
  refine ⟨rfl, ?_, ?_, ?_⟩
  · rintro rfl rfl
    simp [handleQuery]
  · rintro rfl rfl
    simp [handleQuery]
  · rintro rfl
    simp [handleQuery]

/-- Witness for C10 at a concrete failing query. -/
theorem C10_query_error_preserves_history_witness :
    (handleQuery false true "q" [{ role := "user", content := "hi" }] []
        (Except.error "down")).1 = [{ role := "user", content := "hi" }] ∧
    (handleQuery false true "q" [{ role := "user", content := "hi" }] []
        (Except.error "down")).2 = [Bubble.user "q", Bubble.failure "down"] :=
  ⟨(C10_query_error_preserves_history false true "q"
      [{ role := "user", content := "hi" }] [] "down").1,
   by
     have h := (C10_query_error_preserves_history false true "q"
       [{ role := "user", content := "hi" }] [] "down").2.1 rfl rfl
     simpa using h⟩

/-- The page-restore logic that runs on reload (main.js 1139-1155, with
`loadAnalysis` main.js 574-600): a saved `upload` page is restored; a saved
`results` page reloads the persisted analysis (results on success, the
error view on failure, the dashboard when no id was persisted); every other
saved value, including `loading` and `error`, goes to the dashboard. -/
def restorePage (saved : Option String) (analysisIdPresent loadSucceeds : Bool) :
    CName :=
  match saved with
  | some "upload" => CName.upload
  | some "results" =>
    if analysisIdPresent then
      (if loadSucceeds then CName.results else CName.error)
    else CName.dashboard
  | _ => CName.dashboard

/-- C5 (amended): after `showState s`, exactly one named view container is visible
(every other container carries the hidden class), namely the remapped
target; the name of the state actually shown is persisted under the page
key; a reload restores the same view for the dashboard, upload and results
pages (a page persisted as loading or error reloads to the dashboard); and
`renderResults` additionally persists the truthy analysis id while showing
(and persisting) the results state. -/
theorem C5_showState_exactly_one_visible (s : CName) (st : FullState) :
    (∀ c : CName, "hidden" ∉ containerClasses (showState s st) c ↔ c = remapState s)
    ∧ (showState s st).pageKey = some (stateName (remapState s))
    ∧ (restorePage (some (stateName CName.dashboard)) true true = CName.dashboard
        ∧ restorePage (some (stateName CName.upload)) true true = CName.upload
        ∧ restorePage (some (stateName CName.results)) true true = CName.results)
    ∧ ∀ (data : Analysis) (f : Option String) (st2 : FullState) (i : Int),
        data.id = some i → i ≠ 0 →
        (renderResults data f st2).analysisKey = some (toString i) ∧
        (renderResults data f st2).pageKey = some (stateName CName.results) := by
  refine ⟨?_, ?_, ⟨rfl, rfl, rfl⟩, ?_⟩
  · intro c
    cases s <;> cases c <;>
      simp [showState, showContainer, remapState, containerClasses,
        mem_addClass_self, mem_addClass_of_mem, not_mem_removeClass]
  · cases s <;> rfl
  · intro data f st2 i hid hne
    constructor
    · show persistId data.id st2.analysisKey = some (toString i)
      rw [hid]
      simp [persistId, hne]
    · rfl

/-- Concrete analysis for the C5 witness. -/
def analysisDemo : Analysis := { id := some 5 }

/-- Witness for C5: rendering a concrete analysis persists its id and the
results page name. -/
theorem C5_showState_exactly_one_visible_witness :
    (renderResults analysisDemo none {}).analysisKey = some (toString (5 : Int)) ∧
    (renderResults analysisDemo none {}).pageKey = some (stateName CName.results) :=
  (C5_showState_exactly_one_visible CName.upload {}).2.2.2 analysisDemo none {} 5
    rfl (by decide)

/-- Counterexample to C5 as literally stated: `showState` persists the
`loading` state name, but a reload then shows the dashboard, not the same
view. -/
theorem C5_loading_not_restored :
    (showState CName.loading {}).pageKey = some "loading" ∧
    restorePage (some "loading") true true = CName.dashboard ∧
    CName.loading ≠ CName.dashboard :=
  ⟨rfl, rfl, by decide⟩

/-- C8: the full results re-render is idempotent: invoking `renderResults`
twice in succession with the same Analysis (and the same selected-file
fallback) leaves the client state — assessment text, key-info rows, action
cards, document viewer, tab selection, toggle state, container visibility
and persisted keys — exactly as invoking it once. -/
theorem C8_renderResults_idempotent (data : Analysis) (f : Option String)
    (st : FullState) :
    renderResults data f (renderResults data f st) = renderResults data f st := by
  simp only [renderResults, showState, showContainer, remapState]
  simp [FullState.mk.injEq, persistId_idem, addClass_idem, removeClass_idem,
    removeClass_addClass, addClasses_idem, removeClasses_idem]

/-! ### Remaining claims -/

/-- C1: the text-highlight step of `applyHighlights` clamps each span to
`[0, text length]`, drops empty spans, sorts by start offset, and merges
overlapping or adjacent spans (all of which `computeMerged` performs); on the
spans `(2,5)`, `(4,8)`, `(10,12)` over a 20-character text it produces
exactly the two merged ranges `(2,8)` and `(10,12)`; escape/unescape
round-trips to the original text; and decoding the markup rebuilt by
interleaving escaped plain text with `<mark>`-wrapped escaped spans recovers
the page text exactly, so every character outside the merged ranges appears
in the rebuilt markup as the HTML-escaped form of the original character. -/
theorem C1_text_highlight_merge :
    computeMerged demoMatches 20 = [⟨2, 8⟩, ⟨10, 12⟩]
    ∧ (∀ l : List Char, unescapeHTMLspec (escapeHTML l) = l)
    ∧ ∀ (text : List Char) (ms : List HMatch),
        decodeMarkup (rebuildHtml text (computeMerged ms text.length)) = text := by
  refine ⟨by decide, unescape_escape, ?_⟩
  intro text ms
  have hp := computeMerged_props ms text.length
  have hdec := decode_rebuildLoop text (computeMerged ms text.length) 0
    le_rfl (by exact_mod_cast Nat.zero_le _) hp.1
    (by
      intro hd hhd
      have hmem : hd ∈ computeMerged ms text.length := by
        cases hm : computeMerged ms text.length with
        | nil => rw [hm] at hhd; cases hhd
        | cons a t =>
          rw [hm] at hhd
          cases hhd
          exact List.mem_cons_self _ _
      exact (hp.1 hd hmem).1)
    hp.2
  rw [rebuildHtml, hdec, sliceI_zero_length]

/-- C9 (implicit): for every input match list and page text length, the
merged range list `applyHighlights` emits for a text page consists of
non-empty ranges (`s < e`) lying within `[0, text length]`, pairwise
disjoint (each range ends strictly before the next starts) and in strictly
increasing order of start; spans with non-numeric offsets, inverted bounds,
or out-of-range bounds are dropped or clamped beforehand. -/
theorem C9_merged_ranges_invariant (ms : List HMatch) (len : Nat) :
    (∀ r ∈ computeMerged ms len, 0 ≤ r.s ∧ r.s < r.e ∧ r.e ≤ (len : Int))
    ∧ (computeMerged ms len).Chain' (fun a b => a.e < b.s)
    ∧ (computeMerged ms len).Chain' (fun a b => a.s < b.s) := by
  have hp := computeMerged_props ms len
  refine ⟨hp.1, hp.2, ?_⟩
  exact chain'_imp_mem hp.2 hp.1 (fun a b ha _ hab => lt_trans ha.2.1 hab)

/-- Witness for C9 at the spec's example input. -/
theorem C9_merged_ranges_invariant_witness :
    (0 ≤ (⟨2, 8⟩ : IRange).s ∧ (⟨2, 8⟩ : IRange).s < (⟨2, 8⟩ : IRange).e ∧
      (⟨2, 8⟩ : IRange).e ≤ ((20 : Nat) : Int)) :=
  (C9_merged_ranges_invariant demoMatches 20).1 ⟨2, 8⟩ (by decide)

/-- C4: composing `escapeHTML` with `renderInlineMarkdown` the way the
answer renderer does never re-opens removed tags: for every input string,
the rendered output never contains `<script>` as a substring, and when the
input contains `<script>` the output contains its escaped literal form
`&lt;script&gt;`. -/
theorem C4_script_never_unescaped (s : List Char) :
    ¬ scriptTok <:+: renderInlineMarkdown (escapeHTML s)
    ∧ (scriptTok <:+: s → scriptEsc <:+: renderInlineMarkdown (escapeHTML s)) := by
  constructor
  · exact safe_no_script (rim_safe (escape_nolt s))
  · intro h
    exact rim_infix_mono (by decide) (by decide) (escape_maps_script_token h)

/-- Witness for C4 at the concrete input `<script>`. -/
theorem C4_script_never_unescaped_witness :
    scriptTok <:+: scriptTok ∧
      scriptEsc <:+: renderInlineMarkdown (escapeHTML scriptTok) :=
  ⟨List.infix_refl _, (C4_script_never_unescaped scriptTok).2 (List.infix_refl _)⟩

end LegalEase
